import Mathlib

/-!
Shallow embedding of the rusty_store inventory system (src/inventory.rs).

Rust `u64` quantities are modelled as `Nat` (no claim under study concerns
64-bit overflow); Rust `f64` prices are modelled as exact rationals `ℚ`, so
that the algebraic claims are about the lot-matching algorithms themselves
rather than about floating-point rounding.  Console I/O is out of scope: each
handler is embedded as the pure state transformation it performs after its
input parsing and validation succeeded, exactly mirroring the Rust control
flow.
-/

/-- Embeds `struct Product` of src/inventory.rs: a catalog record with the
ordered purchase-lot ledger `purchase_prices`. -/
structure Product where
  name : String
  description : String
  quantity : Nat
  sale_price : ℚ
  purchase_prices : List (Nat × ℚ)
  deriving Repr, DecidableEq

/-- Embeds `struct SaleTx`: one sale log entry. -/
structure SaleTx where
  product_name : String
  quantity : Nat
  sale_price : ℚ
  deriving Repr, DecidableEq

/-- Embeds `struct PurchaseTx`: one purchase log entry. -/
structure PurchaseTx where
  product_name : String
  quantity : Nat
  purchase_price : ℚ
  deriving Repr, DecidableEq

/-- Embeds `struct Inventory`: the whole in-memory state. -/
structure Inventory where
  products : List Product
  sale_txs : List SaleTx
  purchase_txs : List PurchaseTx
  deriving Repr, DecidableEq

/-- Embeds `Inventory::new`. -/
def Inventory.new : Inventory := ⟨[], [], []⟩

/-- Embeds `Product::new`: the initial ledger is one lot
`(quantity, purchase_price)`. -/
def Product.new (name description : String) (quantity : Nat)
    (sale_price purchase_price : ℚ) : Product :=
  ⟨name, description, quantity, sale_price, [(quantity, purchase_price)]⟩

/-- Embeds `Inventory::get_product`: first product in catalog order whose
name matches. -/
def get_product (inv : Inventory) (product_name : String) : Option Product :=
  inv.products.find? (fun p => p.name == product_name)

/-- Embeds `Inventory::add_new_product`: pushes the freshly built product at
the end of the catalog. -/
def add_new_product (inv : Inventory) (name description : String) (quantity : Nat)
    (sale_price purchase_price : ℚ) : Inventory :=
  { inv with products :=
      inv.products ++ [Product.new name description quantity sale_price purchase_price] }

/-- Embeds the lot-merge loop of `Inventory::add_same_product`: scan the
ledger in order, add `quantity` to the first lot whose unit cost equals
`purchase_price` exactly, and if none matches push a new lot at the end. -/
def mergeLot (lots : List (Nat × ℚ)) (quantity : Nat) (purchase_price : ℚ) :
    List (Nat × ℚ) :=
  match lots with
  | [] => [(quantity, purchase_price)]
  | (q, p) :: rest =>
    if p = purchase_price then (q + quantity, p) :: rest
    else (q, p) :: mergeLot rest quantity purchase_price

/-- Embeds `iter_mut().find(...)` followed by an in-place mutation: rewrite
the first product whose name matches, keep every other product unchanged,
and fail (`none`) when no product matches. -/
def updateFirst (ps : List Product) (product_name : String) (f : Product → Product) :
    Option (List Product) :=
  match ps with
  | [] => none
  | p :: rest =>
    if p.name == product_name then some (f p :: rest)
    else (updateFirst rest product_name f).map (fun l => p :: l)

/-- Embeds `Inventory::add_same_product` (restock): increments the stored
quantity and merges the new lot into the ledger of the first matching
product; `Err` when the product is absent. -/
def add_same_product (inv : Inventory) (name : String) (quantity : Nat)
    (purchase_price : ℚ) : Except String Inventory :=
  match updateFirst inv.products name (fun p =>
      { p with quantity := p.quantity + quantity,
               purchase_prices := mergeLot p.purchase_prices quantity purchase_price }) with
  | some ps => .ok { inv with products := ps }
  | none => .error ("Unavailable product: " ++ name)

/-- Embeds `Inventory::edit_product`: fully overwrites the first product
whose name equals `new_product.name`; `Err` when absent. -/
def edit_product (inv : Inventory) (new_product : Product) : Except String Inventory :=
  match updateFirst inv.products new_product.name (fun _ => new_product) with
  | some ps => .ok { inv with products := ps }
  | none => .error ("Unavailable product: " ++ new_product.name)

/-- Embeds `Inventory::delete_product` (`retain`): drops every product whose
name matches; a no-op when none does. -/
def delete_product (inv : Inventory) (product_name : String) : Inventory :=
  { inv with products := inv.products.filter (fun p => p.name != product_name) }

/-- Embeds `Inventory::record_sale`: append-only push on the sale log. -/
def record_sale (inv : Inventory) (tx : SaleTx) : Inventory :=
  { inv with sale_txs := inv.sale_txs ++ [tx] }

/-- Embeds `Inventory::record_purchase`: append-only push on the purchase
log. -/
def record_purchase (inv : Inventory) (tx : PurchaseTx) : Inventory :=
  { inv with purchase_txs := inv.purchase_txs ++ [tx] }

/-- The two failure modes of the sale path of `sales_handler` (spec names:
`NotFound`, `InsufficientStock`). -/
inductive SaleErr
  | NotFound
  | InsufficientStock
  deriving Repr, DecidableEq

/-- Embeds the core of `sales_handler` after input parsing: look the product
up (`NotFound` when absent), reject `quantity > product.quantity`
(`InsufficientStock`), otherwise clone, decrement the quantity, build the
sale transaction with the product's current `sale_price`, replace the
product via `edit_product`, and append the transaction.  The pair returned
is the (possibly updated) inventory and the error, `none` on success; on an
error the inventory is returned untouched, as in the Rust handler. -/
def sales_handler (inv : Inventory) (product_name : String) (quantity : Nat) :
    Inventory × Option SaleErr :=
  match get_product inv product_name with
  | none => (inv, some .NotFound)
  | some p =>
    if quantity > p.quantity then (inv, some .InsufficientStock)
    else
      let new_product := { p with quantity := p.quantity - quantity }
      let tx : SaleTx := ⟨new_product.name, quantity, new_product.sale_price⟩
      match edit_product inv new_product with
      | .ok inv2 => (record_sale inv2 tx, none)
      | .error _ => (inv, some .NotFound)

/-- One validated user-level operation, as routed by the menu handlers
(`add_handler` new/existing paths, `sales_handler`, `edit_handler`,
`delete_handler`). -/
inductive Op
  | create (name description : String) (quantity : Nat) (sale_price purchase_price : ℚ)
  | restock (name : String) (quantity : Nat) (purchase_price : ℚ)
  | sale (name : String) (quantity : Nat)
  | edit (name : String) (description : Option String) (sale_price : Option ℚ)
  | del (name : String)
  deriving Repr, DecidableEq

/-- Embeds one handler invocation including its validation, returning `none`
when the handler rejects the request (invalid input or a failed lookup) and
leaves the state untouched.  `create` follows `add_handler`'s new-product
path (the product must be absent, quantity nonzero, prices non-negative) and
records the purchase transaction; `restock` follows its existing-product
path; `sale` follows `sales_handler`; `edit` follows `edit_handler` (only
description and sale price can change); `del` follows `delete_handler`. -/
def runOp (inv : Inventory) : Op → Option Inventory
  | .create n d q sp pp =>
    if q = 0 then none
    else if sp < 0 then none
    else if pp < 0 then none
    else
      match get_product inv n with
      | some _ => none
      | none => some (record_purchase (add_new_product inv n d q sp pp) ⟨n, q, pp⟩)
  | .restock n q pp =>
    if q = 0 then none
    else if pp < 0 then none
    else
      match get_product inv n with
      | none => none
      | some _ =>
        match add_same_product inv n q pp with
        | .ok inv2 => some (record_purchase inv2 ⟨n, q, pp⟩)
        | .error _ => none
  | .sale n q =>
    match sales_handler inv n q with
    | (inv2, none) => some inv2
    | (_, some _) => none
  | .edit n d sp =>
    match get_product inv n with
    | none => none
    | some p =>
      if sp.getD 0 < 0 then none
      else
        match edit_product inv
            { p with description := d.getD p.description,
                     sale_price := sp.getD p.sale_price } with
        | .ok inv2 => some inv2
        | .error _ => none
  | .del n => some (delete_product inv n)

/-- Runs a list of validated operations in order; `none` as soon as one is
rejected. -/
def runOps (inv : Inventory) : List Op → Option Inventory
  | [] => some inv
  | op :: rest =>
    match runOp inv op with
    | some inv2 => runOps inv2 rest
    | none => none

/-- Outcome of one per-product line of the sales report: either the computed
profit figure or the printed gap marker `Error (Unable to calculate)`. -/
inductive ReportLine
  | ok (profit : ℚ)
  | gap
  deriving Repr, DecidableEq

/-- Outcome of one line of the sales history: for each logged sale either the
numeric profit line or the gap line carrying the marker text in place of a
profit. -/
inductive HistLine
  | ok (product_name : String) (quantity : Nat) (sale_price profit : ℚ)
  | gap (product_name : String) (quantity : Nat) (sale_price : ℚ)
  deriving Repr, DecidableEq

/-- Embeds the accumulation of `total_sales` in `report_sales`: total
quantity sold of one product over the whole sale log. -/
def salesQty (txs : List SaleTx) (product_name : String) : Nat :=
  txs.foldl (fun a tx => if tx.product_name == product_name then a + tx.quantity else a) 0

/-- Embeds the revenue component of `total_sales` in `report_sales`: total
sale price collected for one product over the whole sale log. -/
def salesRevenue (txs : List SaleTx) (product_name : String) : ℚ :=
  txs.foldl
    (fun a tx =>
      if tx.product_name == product_name then a + (tx.quantity : ℚ) * tx.sale_price else a)
    0

/-- Embeds the inner FIFO loop of `report_sales` (aggregate mode): walk the
ledger from the first lot, greedily take `min sold lot_quantity` from each
lot, accumulate `taken * unit_cost`, stop when the request is satisfied. -/
def reportCost (sold : Nat) (lots : List (Nat × ℚ)) : ℚ :=
  match lots with
  | [] => 0
  | (q, p) :: rest =>
    let current := min sold q
    if sold - current = 0 then (current : ℚ) * p
    else (current : ℚ) * p + reportCost (sold - current) rest

/-- The distinct product names of the sale log in first-occurrence order: the
key set over which `report_sales` iterates (the Rust `HashMap` iteration
order is unspecified; only the set of keys is observable). -/
def saleNames (txs : List SaleTx) : List String :=
  txs.foldl (fun ns tx => if tx.product_name ∈ ns then ns else ns ++ [tx.product_name]) []

/-- Embeds one line of `report_sales` for a given product name: the profit
`revenue - reportCost total_sold lots` when the product is still in the
catalog, the gap marker otherwise. -/
def reportEntry (inv : Inventory) (product_name : String) : ReportLine :=
  match get_product inv product_name with
  | some p =>
    .ok (salesRevenue inv.sale_txs product_name -
          reportCost (salesQty inv.sale_txs product_name) p.purchase_prices)
  | none => .gap

/-- Embeds `report_sales`: one line per sold product name giving quantity,
revenue, and the profit-or-gap outcome. -/
def report_sales (inv : Inventory) : List (String × Nat × ℚ × ReportLine) :=
  (saleNames inv.sale_txs).map fun n =>
    (n, salesQty inv.sale_txs n, salesRevenue inv.sale_txs n, reportEntry inv n)

/-- Embeds the inner consumption loop of `display_sales` (and the spec's
`consume_fifo`): walk the ledger in order, first skipping `skip` units
cumulatively, then greedily consume up to `request` units, accumulating
`taken * unit_cost`.  Returns the matched cost and the unmatched
remainder. -/
def consumeFifo : Nat → Nat → List (Nat × ℚ) → ℚ × Nat
  | _, request, [] => (0, request)
  | skip, request, (q, p) :: rest =>
    if q ≤ skip then consumeFifo (skip - q) request rest
    else
      let current := min request (q - skip)
      if request - current = 0 then ((current : ℚ) * p, 0)
      else
        let r := consumeFifo 0 (request - current) rest
        ((current : ℚ) * p + r.1, r.2)

/-- Embeds the per-product value of the `sold_purchase_prices` map of
`display_sales`: the running offset and the ledger snapshot. -/
structure PP where
  offset : Nat
  purchase_prices : List (Nat × ℚ)
  deriving Repr, DecidableEq

/-- Embeds the `get_mut` offset advance of `display_sales`: add `q` to the
offset stored under `product_name`, leaving other entries unchanged. -/
def ppUpdate (st : List (String × PP)) (product_name : String) (q : Nat) :
    List (String × PP) :=
  st.map fun e =>
    if e.1 == product_name then (e.1, ⟨e.2.offset + q, e.2.purchase_prices⟩) else e

/-- Embeds one iteration of the transaction loop of `display_sales`: insert
the product's ledger snapshot with offset 0 on first encounter (or mark the
line as a gap when the product is gone from the catalog), price the
transaction with `consumeFifo offset quantity`, then advance the offset by
the full transaction quantity whether or not all units were matched. -/
def displayStep (products : List Product) (st : List (String × PP)) (tx : SaleTx) :
    List (String × PP) × HistLine :=
  let st1 : List (String × PP) :=
    match st.lookup tx.product_name with
    | some _ => st
    | none =>
      match products.find? (fun p => p.name == tx.product_name) with
      | some product => (tx.product_name, PP.mk 0 product.purchase_prices) :: st
      | none => st
  match st1.lookup tx.product_name with
  | some pp =>
    (ppUpdate st1 tx.product_name tx.quantity,
     .ok tx.product_name tx.quantity tx.sale_price
       ((tx.quantity : ℚ) * tx.sale_price -
         (consumeFifo pp.offset tx.quantity pp.purchase_prices).1))
  | none => (st1, .gap tx.product_name tx.quantity tx.sale_price)

/-- Runs the transaction loop of `display_sales` over the remaining sale log
entries from a given map state, collecting the emitted lines in order. -/
def displayFold (products : List Product) (st : List (String × PP)) :
    List SaleTx → List HistLine
  | [] => []
  | tx :: rest =>
    let r := displayStep products st tx
    r.2 :: displayFold products r.1 rest

/-- Embeds `display_sales`: one history line per logged sale transaction, in
log order, priced by sequential-offset FIFO attribution. -/
def display_sales (inv : Inventory) : List HistLine :=
  displayFold inv.products [] inv.sale_txs

/-- Unit-level view of a ledger: the list holding, for each lot in order,
`lot_quantity` copies of its unit cost.  Position `i` is the cost of the
`i`-th inventory unit in FIFO order. -/
def unitCosts (lots : List (Nat × ℚ)) : List ℚ :=
  (lots.map (fun l => List.replicate l.1 l.2)).flatten

/-- Total number of units held in a ledger's lots. -/
def totalUnits (lots : List (Nat × ℚ)) : Nat :=
  (lots.map (fun l => l.1)).sum

/-- Total cost of every unit held in a ledger's lots. -/
def lotTotalCost (lots : List (Nat × ℚ)) : ℚ :=
  (lots.map (fun l => (l.1 : ℚ) * l.2)).sum

/-- The quantities of one product's sale transactions, in log order. -/
def txQuantities (txs : List SaleTx) (product_name : String) : List Nat :=
  (txs.filter (fun tx => tx.product_name == product_name)).map (fun tx => tx.quantity)

/-- The spec-level description of one sales-history line: the cost of the
transaction is one `consumeFifo` query at the current offset on the ledger
of the (first) cataloged product of that name, its profit is
`quantity * sale_price - cost`; when the product is gone the line is the gap
marker. -/
def lineFor (products : List Product) (off : Nat) (tx : SaleTx) : HistLine :=
  match products.find? (fun p => p.name == tx.product_name) with
  | some p =>
    .ok tx.product_name tx.quantity tx.sale_price
      ((tx.quantity : ℚ) * tx.sale_price -
        (consumeFifo off tx.quantity p.purchase_prices).1)
  | none => .gap tx.product_name tx.quantity tx.sale_price

/-- The spec-level description of the whole sales history: each transaction
is priced at the offset equal to the total quantity of the same product's
earlier transactions (`done` is the already-processed prefix of the log),
and the offset advances by the full transaction quantity regardless of
matching success. -/
def specSeqLines (products : List Product) (done : List SaleTx) :
    List SaleTx → List HistLine
  | [] => []
  | tx :: rest =>
    lineFor products (salesQty done tx.product_name) tx ::
      specSeqLines products (done ++ [tx]) rest

/-- Sum of sequential-mode costs for a run of transaction quantities starting
at a given offset: each quantity is priced by one `consumeFifo` query and
advances the offset by itself. -/
def seqCostSum (lots : List (Nat × ℚ)) (off : Nat) : List Nat → ℚ
  | [] => 0
  | q :: qs => (consumeFifo off q lots).1 + seqCostSum lots (off + q) qs

/-- On-hand quantity of a product as read from the catalog, 0 when the
product is absent. -/
def qtyOf (inv : Inventory) (product_name : String) : Nat :=
  match get_product inv product_name with
  | some p => p.quantity
  | none => 0

/-- Total quantity purchased for one product over a list of validated
operations (initial creation plus restocks). -/
def purchasedQty (ops : List Op) (product_name : String) : Nat :=
  (ops.map fun op =>
    match op with
    | .create n _ q _ _ => if n = product_name then q else 0
    | .restock n q _ => if n = product_name then q else 0
    | _ => 0).sum

/-- Total quantity sold for one product over a list of validated
operations. -/
def soldQty (ops : List Op) (product_name : String) : Nat :=
  (ops.map fun op =>
    match op with
    | .sale n q => if n = product_name then q else 0
    | _ => 0).sum

/-- True exactly for the create/restock/sale operations (the purchase/sale
operations of the stock-conservation property). -/
def isCRS : Op → Bool
  | .create _ _ _ _ _ => true
  | .restock _ _ _ => true
  | .sale _ _ => true
  | _ => false

/-! ### Basic facts about the unit-level view of a ledger -/

theorem unitCosts_nil : unitCosts [] = [] := rfl

theorem unitCosts_cons (q : Nat) (p : ℚ) (rest : List (Nat × ℚ)) :
    unitCosts ((q, p) :: rest) = List.replicate q p ++ unitCosts rest := rfl

theorem length_unitCosts (lots : List (Nat × ℚ)) :
    (unitCosts lots).length = totalUnits lots := by
  induction lots with
  | nil => rfl
  | cons hd rest ih =>
    obtain ⟨q, p⟩ := hd
    rw [unitCosts_cons, List.length_append, List.length_replicate, ih]
    simp [totalUnits]

theorem sum_unitCosts (lots : List (Nat × ℚ)) :
    (unitCosts lots).sum = lotTotalCost lots := by
  induction lots with
  | nil => rfl
  | cons hd rest ih =>
    obtain ⟨q, p⟩ := hd
    rw [unitCosts_cons, List.sum_append, ih, List.sum_replicate, nsmul_eq_mul]
    rfl

/-- Unit-level characterization of the sequential FIFO loop: starting after
the first `skip` units, consuming `request` units takes exactly the slice
`(units.drop skip).take request` of the unit-cost list; the cost is the sum
of that slice and the unmatched remainder is what the slice could not
cover. -/
theorem consumeFifo_eq_slice (lots : List (Nat × ℚ)) :
    ∀ skip request : Nat,
      consumeFifo skip request lots =
        ((((unitCosts lots).drop skip).take request).sum,
         request - (((unitCosts lots).drop skip).take request).length) := by
  induction lots with
  | nil => intro skip request; simp [consumeFifo, unitCosts_nil]
  | cons hd rest ih =>
    intro skip request
    obtain ⟨q, p⟩ := hd
    rw [unitCosts_cons, List.drop_append_eq_append_drop, List.drop_replicate,
      List.length_replicate]
    by_cases hqs : q ≤ skip
    · have h1 : q - skip = 0 := by omega
      rw [consumeFifo, if_pos hqs, ih (skip - q) request, h1]
      simp
    · have h1 : skip - q = 0 := by omega
      rw [consumeFifo, if_neg hqs, h1]
      simp only [List.drop_zero, List.take_append_eq_append_take,
        List.take_replicate, List.length_replicate]
      by_cases h2 : request - min request (q - skip) = 0
      · have h3 : min request (q - skip) = request := by omega
        have h4 : request - (q - skip) = 0 := by omega
        rw [if_pos h2]
        simp [h3, h4, List.sum_replicate, nsmul_eq_mul]
      · have h4 : request - (q - skip) = request - min request (q - skip) := by omega
        rw [if_neg h2, ih 0 (request - min request (q - skip))]
        simp only [List.drop_zero]
        rw [List.sum_append, List.sum_replicate, nsmul_eq_mul, List.length_append,
          List.length_replicate, h4, Nat.sub_sub]

theorem consumeFifo_fst (lots : List (Nat × ℚ)) (skip request : Nat) :
    (consumeFifo skip request lots).1 =
      (((unitCosts lots).drop skip).take request).sum := by
  rw [consumeFifo_eq_slice]

theorem consumeFifo_snd (lots : List (Nat × ℚ)) (skip request : Nat) :
    (consumeFifo skip request lots).2 =
      request - (((unitCosts lots).drop skip).take request).length := by
  rw [consumeFifo_eq_slice]

/-- Splitting a slice sum at an intermediate offset. -/
theorem slice_sum_add (l : List ℚ) (off a b : Nat) :
    ((l.drop off).take (a + b)).sum =
      ((l.drop off).take a).sum + ((l.drop (off + a)).take b).sum := by
  rw [List.take_add, List.sum_append, List.drop_drop]

/-- Consuming `a + b` units in one query costs the same as consuming `a`
units and then `b` units with the offset advanced by `a` — even when part of
the request goes unmatched. -/
theorem consumeFifo_fst_add (lots : List (Nat × ℚ)) (off a b : Nat) :
    (consumeFifo off (a + b) lots).1 =
      (consumeFifo off a lots).1 + (consumeFifo (off + a) b lots).1 := by
  rw [consumeFifo_fst, consumeFifo_fst, consumeFifo_fst, slice_sum_add]

/-- A request of zero units costs nothing. -/
theorem consumeFifo_fst_zero (lots : List (Nat × ℚ)) (off : Nat) :
    (consumeFifo off 0 lots).1 = 0 := by
  rw [consumeFifo_fst]
  simp

/-- When the request covers every unit in the ledger, the matched cost is the
total cost of all lots: the excess units beyond the ledger contribute
nothing. -/
theorem consumeFifo_fst_of_total_le (lots : List (Nat × ℚ)) (sold : Nat)
    (h : totalUnits lots ≤ sold) :
    (consumeFifo 0 sold lots).1 = lotTotalCost lots := by
  rw [consumeFifo_fst, List.drop_zero, List.take_of_length_le, sum_unitCosts]
  rw [length_unitCosts]
  exact h

/-- The sum of sequential-mode costs over a run of quantities equals one
aggregate query for their total, from the same starting offset. -/
theorem seqCostSum_eq (lots : List (Nat × ℚ)) :
    ∀ (qs : List Nat) (off : Nat),
      seqCostSum lots off qs = (consumeFifo off qs.sum lots).1 := by
  intro qs
  induction qs with
  | nil => intro off; rw [seqCostSum, List.sum_nil, consumeFifo_fst_zero]
  | cons q qs ih =>
    intro off
    rw [seqCostSum, List.sum_cons, consumeFifo_fst_add, ih (off + q)]

/-- The aggregate FIFO loop of `report_sales` computes the same cost as one
`consumeFifo` query at offset 0. -/
theorem reportCost_eq_consumeFifo (lots : List (Nat × ℚ)) :
    ∀ sold : Nat, reportCost sold lots = (consumeFifo 0 sold lots).1 := by
  induction lots with
  | nil => intro sold; rw [reportCost, consumeFifo]
  | cons hd rest ih =>
    intro sold
    obtain ⟨q, p⟩ := hd
    rw [reportCost, consumeFifo]
    by_cases hq : q ≤ 0
    · have hq0 : q = 0 := by omega
      rw [if_pos hq, hq0]
      simp only [Nat.min_zero, Nat.sub_zero, Nat.cast_zero, zero_mul]
      by_cases hs : sold = 0
      · rw [if_pos hs, hs, consumeFifo_fst_zero]
      · rw [if_neg hs, ih sold, zero_add]
    · rw [if_neg hq]
      have hqs : q - 0 = q := by omega
      rw [hqs]
      by_cases hs : sold - min sold q = 0
      · rw [if_pos hs, if_pos hs]
      · rw [if_neg hs, if_neg hs, ih (sold - min sold q)]

/-! ### Accounting facts about the sale log -/

theorem salesQty_go (name : String) :
    ∀ (txs : List SaleTx) (a : Nat),
      List.foldl (fun a tx => if tx.product_name == name then a + tx.quantity else a) a txs =
        a + (txQuantities txs name).sum := by
  intro txs
  induction txs with
  | nil => intro a; simp [txQuantities]
  | cons tx rest ih =>
    intro a
    by_cases h : tx.product_name == name
    · simp only [List.foldl_cons, if_pos h, ih, txQuantities, List.filter_cons, h,
        if_pos, List.map_cons, List.sum_cons]
      omega
    · simp only [List.foldl_cons, if_neg h, ih, txQuantities, List.filter_cons]

theorem salesQty_eq_sum (txs : List SaleTx) (name : String) :
    salesQty txs name = (txQuantities txs name).sum := by
  rw [salesQty, salesQty_go, Nat.zero_add]

theorem salesQty_append (a b : List SaleTx) (name : String) :
    salesQty (a ++ b) name = salesQty a name + salesQty b name := by
  simp [salesQty_eq_sum, txQuantities, List.filter_append]

theorem salesQty_singleton (tx : SaleTx) (name : String) :
    salesQty [tx] name = if tx.product_name == name then tx.quantity else 0 := by
  by_cases h : tx.product_name == name
  · rw [if_pos h, salesQty_eq_sum]
    simp [txQuantities, List.filter_cons, h]
  · rw [if_neg h, salesQty_eq_sum]
    simp [txQuantities, List.filter_cons, h]

theorem salesQty_of_not_any (txs : List SaleTx) (name : String)
    (h : txs.any (fun tx => tx.product_name == name) = false) :
    salesQty txs name = 0 := by
  rw [salesQty_eq_sum, txQuantities]
  have hf : txs.filter (fun tx => tx.product_name == name) = [] := by
    rw [List.filter_eq_nil_iff]
    intro tx htx
    have := List.any_eq_false.mp h tx htx
    simpa using this
  rw [hf]
  rfl

/-! ### Characterization of the sequential sales history -/

/-- Simple lookup facts for the association-list model of the
`sold_purchase_prices` map. -/
theorem lookup_cons_self {β : Type} (k : String) (v : β) (es : List (String × β)) :
    ((k, v) :: es).lookup k = some v := by
  simp [List.lookup]

theorem lookup_cons_ne {β : Type} (k m : String) (v : β) (es : List (String × β))
    (h : ¬ m = k) : ((k, v) :: es).lookup m = es.lookup m := by
  have hb : (m == k) = false := beq_eq_false_iff_ne.mpr h
  simp [List.lookup, hb]

theorem ppUpdate_cons (k : String) (pp : PP) (st : List (String × PP)) (n : String)
    (q : Nat) :
    ppUpdate ((k, pp) :: st) n q =
      (if k == n then (k, PP.mk (pp.offset + q) pp.purchase_prices) else (k, pp)) ::
        ppUpdate st n q := rfl

theorem lookup_ppUpdate_self (st : List (String × PP)) (n : String) (q : Nat) :
    (ppUpdate st n q).lookup n =
      (st.lookup n).map (fun pp => PP.mk (pp.offset + q) pp.purchase_prices) := by
  induction st with
  | nil => rfl
  | cons e st ih =>
    obtain ⟨k, pp⟩ := e
    rw [ppUpdate_cons]
    by_cases h : n = k
    · subst h
      rw [if_pos (by simp : (n == n) = true), lookup_cons_self, lookup_cons_self]
      rfl
    · have hb2 : (k == n) = false := beq_eq_false_iff_ne.mpr (fun hh => h hh.symm)
      rw [if_neg (by simp [hb2]), lookup_cons_ne _ _ _ _ h, lookup_cons_ne _ _ _ _ h, ih]

theorem lookup_ppUpdate_ne (st : List (String × PP)) (n m : String) (q : Nat)
    (h : ¬ m = n) : (ppUpdate st n q).lookup m = st.lookup m := by
  induction st with
  | nil => rfl
  | cons e st ih =>
    obtain ⟨k, pp⟩ := e
    rw [ppUpdate_cons]
    by_cases hk : (k == n) = true
    · rw [if_pos hk]
      have hkn : k = n := by simpa using hk
      have hmk : ¬ m = k := fun hh => h (hh.trans hkn)
      rw [lookup_cons_ne _ _ _ _ hmk, lookup_cons_ne _ _ _ _ hmk, ih]
    · rw [if_neg hk]
      by_cases hm : m = k
      · subst hm
        rw [lookup_cons_self, lookup_cons_self]
      · rw [lookup_cons_ne _ _ _ _ hm, lookup_cons_ne _ _ _ _ hm, ih]

/-- The intended content of the `sold_purchase_prices` map after the prefix
`done` of the sale log has been processed: a name is present exactly when it
occurs in `done` and is still cataloged, and then carries as offset the
total quantity of its processed transactions, with the ledger snapshot. -/
def stSpec (products : List Product) (done : List SaleTx) (name : String) : Option PP :=
  match products.find? (fun p => p.name == name) with
  | some p =>
    if done.any (fun tx => tx.product_name == name)
    then some ⟨salesQty done name, p.purchase_prices⟩
    else none
  | none => none

theorem stSpec_append_ne (products : List Product) (done : List SaleTx) (tx : SaleTx)
    (name : String) (h : ¬ tx.product_name = name) :
    stSpec products (done ++ [tx]) name = stSpec products done name := by
  have hbe : (tx.product_name == name) = false := beq_eq_false_iff_ne.mpr h
  simp only [stSpec]
  cases hf : products.find? (fun p => p.name == name) with
  | none => rfl
  | some p => simp [List.any_append, hbe, salesQty_append, salesQty_singleton]

/-- One step of `display_sales` agrees with the spec-level line description
and re-establishes the map invariant for the extended prefix. -/
theorem displayStep_spec (products : List Product) (done : List SaleTx)
    (st : List (String × PP)) (tx : SaleTx)
    (hst : ∀ name, st.lookup name = stSpec products done name) :
    (displayStep products st tx).2 = lineFor products (salesQty done tx.product_name) tx ∧
    ∀ name, ((displayStep products st tx).1).lookup name =
      stSpec products (done ++ [tx]) name := by
  rcases hfind : products.find? (fun p => p.name == tx.product_name) with _ | P
  · have h1 : st.lookup tx.product_name = none := by
      rw [hst, stSpec, hfind]
    have hds : displayStep products st tx =
        (st, .gap tx.product_name tx.quantity tx.sale_price) := by
      simp [displayStep, h1, hfind]
    constructor
    · rw [hds, lineFor, hfind]
    · intro name
      rw [hds]
      by_cases hn : tx.product_name = name
      · subst hn
        rw [h1, stSpec, hfind]
      · rw [stSpec_append_ne products done tx name hn, hst]
  · by_cases hl : st.lookup tx.product_name = none
    · have hany : done.any (fun t => t.product_name == tx.product_name) = false := by
        cases hany : done.any (fun t => t.product_name == tx.product_name) with
        | false => rfl
        | true =>
          have := hst tx.product_name
          rw [hl, stSpec, hfind, hany] at this
          simp at this
      have hq0 : salesQty done tx.product_name = 0 := salesQty_of_not_any _ _ hany
      have hds : displayStep products st tx =
          (ppUpdate ((tx.product_name, PP.mk 0 P.purchase_prices) :: st)
              tx.product_name tx.quantity,
           .ok tx.product_name tx.quantity tx.sale_price
             ((tx.quantity : ℚ) * tx.sale_price -
               (consumeFifo 0 tx.quantity P.purchase_prices).1)) := by
        simp [displayStep, hl, hfind, lookup_cons_self]
      constructor
      · rw [hds, lineFor, hfind, hq0]
      · intro name
        rw [hds]
        by_cases hn : tx.product_name = name
        · subst hn
          rw [lookup_ppUpdate_self, lookup_cons_self]
          have hsq : salesQty (done ++ [tx]) tx.product_name =
              salesQty done tx.product_name + tx.quantity := by
            rw [salesQty_append, salesQty_singleton,
              if_pos (by simp : (tx.product_name == tx.product_name) = true)]
          simp [stSpec, hfind, List.any_append, hsq, hq0]
        · rw [lookup_ppUpdate_ne _ _ _ _ (fun hh => hn hh.symm),
            lookup_cons_ne _ _ _ _ (fun hh => hn hh.symm), hst,
            stSpec_append_ne products done tx name hn]
    · rcases hlk : st.lookup tx.product_name with _ | pp
      · exact absurd hlk hl
      have hpp : pp = PP.mk (salesQty done tx.product_name) P.purchase_prices := by
        have := hst tx.product_name
        rw [hlk, stSpec, hfind] at this
        cases hany : done.any (fun t => t.product_name == tx.product_name) with
        | false => rw [hany] at this; simp at this
        | true => rw [hany] at this; simp at this; rw [this]
      have hds : displayStep products st tx =
          (ppUpdate st tx.product_name tx.quantity,
           .ok tx.product_name tx.quantity tx.sale_price
             ((tx.quantity : ℚ) * tx.sale_price -
               (consumeFifo pp.offset tx.quantity pp.purchase_prices).1)) := by
        simp [displayStep, hlk]
      constructor
      · rw [hds, lineFor, hfind, hpp]
      · intro name
        rw [hds]
        by_cases hn : tx.product_name = name
        · subst hn
          rw [lookup_ppUpdate_self, hlk, hpp]
          have hsq : salesQty (done ++ [tx]) tx.product_name =
              salesQty done tx.product_name + tx.quantity := by
            rw [salesQty_append, salesQty_singleton,
              if_pos (by simp : (tx.product_name == tx.product_name) = true)]
          simp [stSpec, hfind, List.any_append, hsq]
        · rw [lookup_ppUpdate_ne _ _ _ _ (fun hh => hn hh.symm), hst,
            stSpec_append_ne products done tx name hn]

/-- The fold of `display_sales` computes the spec-level line sequence from
any state satisfying the map invariant. -/
theorem displayFold_eq (products : List Product) :
    ∀ (txs done : List SaleTx) (st : List (String × PP)),
      (∀ name, st.lookup name = stSpec products done name) →
      displayFold products st txs = specSeqLines products done txs := by
  intro txs
  induction txs with
  | nil => intro done st hst; rfl
  | cons tx rest ih =>
    intro done st hst
    obtain ⟨hline, hstate⟩ := displayStep_spec products done st tx hst
    simp only [displayFold, specSeqLines]
    rw [hline, ih (done ++ [tx]) _ hstate]

/-- The sales history equals its spec-level description: each transaction is
priced by `consumeFifo` at the offset accumulated from the same product's
earlier transactions, in log order. -/
theorem display_sales_eq (inv : Inventory) :
    display_sales inv = specSeqLines inv.products [] inv.sale_txs := by
  apply displayFold_eq
  intro name
  simp only [stSpec, List.lookup_nil]
  cases hf : inv.products.find? (fun p => p.name == name) with
  | none => rfl
  | some p => simp

theorem specSeqLines_length (products : List Product) :
    ∀ (txs done : List SaleTx), (specSeqLines products done txs).length = txs.length := by
  intro txs
  induction txs with
  | nil => intro done; rfl
  | cons tx rest ih =>
    intro done
    simp [specSeqLines, ih]

/-- When a product is gone from the catalog, every history line of its
transactions is the gap marker. -/
theorem specSeqLines_gap (products : List Product) (name : String)
    (h : products.find? (fun p => p.name == name) = none) :
    ∀ (txs done : List SaleTx),
      List.Forall₂ (fun tx l => tx.product_name = name →
          l = HistLine.gap tx.product_name tx.quantity tx.sale_price)
        txs (specSeqLines products done txs) := by
  intro txs
  induction txs with
  | nil => intro done; exact List.Forall₂.nil
  | cons tx rest ih =>
    intro done
    refine List.Forall₂.cons ?_ (ih (done ++ [tx]))
    intro htx
    simp [lineFor, htx, h]

/-- When a product is still cataloged, every history line of its
transactions is a numeric profit line (no gap marker). -/
theorem specSeqLines_ok (products : List Product) (name : String) (P : Product)
    (h : products.find? (fun p => p.name == name) = some P) :
    ∀ (txs done : List SaleTx),
      List.Forall₂ (fun tx l => tx.product_name = name →
          ∃ r, l = HistLine.ok tx.product_name tx.quantity tx.sale_price r)
        txs (specSeqLines products done txs) := by
  intro txs
  induction txs with
  | nil => intro done; exact List.Forall₂.nil
  | cons tx rest ih =>
    intro done
    refine List.Forall₂.cons ?_ (ih (done ++ [tx]))
    intro htx
    refine ⟨(tx.quantity : ℚ) * tx.sale_price -
      (consumeFifo (salesQty done tx.product_name) tx.quantity P.purchase_prices).1, ?_⟩
    simp [lineFor, htx, h]

/-- Offsets accumulated from log prefixes are monotone in the prefix
length. -/
theorem salesQty_take_le (txs : List SaleTx) (name : String) (i j : Nat) (hij : i ≤ j) :
    salesQty (txs.take i) name ≤ salesQty (txs.take j) name := by
  have h2 : txs.take i ++ (txs.drop i).take (j - i) = txs.take (i + (j - i)) :=
    (List.take_add txs i (j - i)).symm
  have h3 : i + (j - i) = j := by omega
  rw [h3] at h2
  rw [← h2, salesQty_append]
  omega

theorem salesQty_take_succ (txs : List SaleTx) (name : String) (i : Nat)
    (hi : i < txs.length) (hname : (txs.get ⟨i, hi⟩).product_name = name) :
    salesQty (txs.take (i + 1)) name =
      salesQty (txs.take i) name + (txs.get ⟨i, hi⟩).quantity := by
  rw [List.take_succ, List.getElem?_eq_getElem hi, salesQty_append, Option.toList_some,
    salesQty_singleton, if_pos (show (txs[i].product_name == name) = true by
      simp only [beq_iff_eq]; exact hname)]
  rfl

/-- The unit-index intervals consumed by two distinct transactions of the
same product never overlap: the later transaction starts at an offset at
least the earlier transaction's offset plus its full quantity. -/
theorem seq_intervals_disjoint (txs : List SaleTx) (name : String) (i j : Nat)
    (hi : i < txs.length) (hj : j < txs.length) (hij : i < j)
    (hni : (txs.get ⟨i, hi⟩).product_name = name)
    (hnj : (txs.get ⟨j, hj⟩).product_name = name) :
    Disjoint
      (Finset.Ico (salesQty (txs.take i) name)
        (salesQty (txs.take i) name + (txs.get ⟨i, hi⟩).quantity))
      (Finset.Ico (salesQty (txs.take j) name)
        (salesQty (txs.take j) name + (txs.get ⟨j, hj⟩).quantity)) := by
  have h1 := salesQty_take_succ txs name i hi hni
  have h2 := salesQty_take_le txs name (i + 1) j (by omega)
  rw [Finset.disjoint_left]
  intro a ha hb
  rw [Finset.mem_Ico] at ha hb
  omega

/-! ### Catalog update machinery -/

theorem find?_name_cons_pos (x : Product) (rest : List Product) (m : String)
    (h : x.name = m) : (x :: rest).find? (fun p => p.name == m) = some x := by
  rw [List.find?_cons_of_pos rest
    (show (fun p : Product => p.name == m) x = true by simp [h])]

theorem find?_name_cons_neg (x : Product) (rest : List Product) (m : String)
    (h : ¬ x.name = m) :
    (x :: rest).find? (fun p => p.name == m) = rest.find? (fun p => p.name == m) := by
  rw [List.find?_cons_of_neg rest
    (show ¬ (fun p : Product => p.name == m) x = true by simp [h])]

theorem updateFirst_none (name : String) (f : Product → Product) :
    ∀ ps : List Product,
      updateFirst ps name f = none ↔ ps.find? (fun p => p.name == name) = none := by
  intro ps
  induction ps with
  | nil => simp [updateFirst]
  | cons p rest ih =>
    by_cases h : p.name = name
    · rw [updateFirst, if_pos (by simp [h] : (p.name == name) = true),
        find?_name_cons_pos p rest name h]
      simp
    · rw [updateFirst, if_neg (by simp [h] : ¬ (p.name == name) = true),
        find?_name_cons_neg p rest name h]
      cases hrest : updateFirst rest name f with
      | none => simp [ih.mp hrest]
      | some l =>
        constructor
        · intro hh
          exact absurd hh (by simp)
        · intro hh
          have h2 := ih.mpr hh
          rw [hrest] at h2
          exact absurd h2 (by simp)

/-- How the first-match update changes catalog lookups: the looked-up record
for the updated name passes through `f`, every other name reads exactly as
before. -/
theorem find?_updateFirst (name : String) (f : Product → Product)
    (hf : ∀ p : Product, p.name = name → (f p).name = name) :
    ∀ (ps l : List Product), updateFirst ps name f = some l →
      ∀ m : String,
        l.find? (fun p => p.name == m) =
          if m = name then (ps.find? (fun p => p.name == m)).map f
          else ps.find? (fun p => p.name == m) := by
  intro ps
  induction ps with
  | nil => intro l h; simp [updateFirst] at h
  | cons p rest ih =>
    intro l h m
    by_cases hpn : p.name = name
    · rw [updateFirst, if_pos (by simp [hpn] : (p.name == name) = true)] at h
      injection h with h
      subst h
      by_cases hm : m = name
      · rw [if_pos hm,
          find?_name_cons_pos (f p) rest m (by rw [hf p hpn, hm]),
          find?_name_cons_pos p rest m (by rw [hpn, hm])]
        rfl
      · rw [if_neg hm,
          find?_name_cons_neg (f p) rest m (by rw [hf p hpn]; exact fun hh => hm hh.symm),
          find?_name_cons_neg p rest m (by rw [hpn]; exact fun hh => hm hh.symm)]
    · rw [updateFirst, if_neg (by simp [hpn] : ¬ (p.name == name) = true)] at h
      cases hrest : updateFirst rest name f with
      | none => rw [hrest] at h; simp at h
      | some l' =>
        rw [hrest] at h
        injection h with h
        subst h
        by_cases hpm : p.name = m
        · have hmn : ¬ m = name := fun hh => hpn (hpm.trans hh)
          rw [if_neg hmn, find?_name_cons_pos p l' m hpm, find?_name_cons_pos p rest m hpm]
        · rw [find?_name_cons_neg p l' m hpm, find?_name_cons_neg p rest m hpm,
            ih l' hrest m]

/-- Every record in the updated catalog is either an old record or the image
of an old record under the update. -/
theorem updateFirst_mem (name : String) (f : Product → Product) :
    ∀ (ps l : List Product), updateFirst ps name f = some l →
      ∀ x ∈ l, x ∈ ps ∨ ∃ p, p ∈ ps ∧ x = f p := by
  intro ps
  induction ps with
  | nil => intro l h; simp [updateFirst] at h
  | cons p rest ih =>
    intro l h x
    by_cases hp : p.name = name
    · rw [updateFirst, if_pos (by simp [hp] : (p.name == name) = true)] at h
      injection h with h
      subst h
      intro hx
      rcases List.mem_cons.mp hx with hx | hx
      · exact Or.inr ⟨p, List.mem_cons_self p rest, hx⟩
      · exact Or.inl (List.mem_cons_of_mem _ hx)
    · rw [updateFirst, if_neg (by simp [hp] : ¬ (p.name == name) = true)] at h
      cases hrest : updateFirst rest name f with
      | none => rw [hrest] at h; simp at h
      | some l' =>
        rw [hrest] at h
        injection h with h
        subst h
        intro hx
        rcases List.mem_cons.mp hx with hx | hx
        · exact Or.inl (by rw [hx]; exact List.mem_cons_self p rest)
        · rcases ih l' hrest x hx with hh | ⟨pp, hpp, hxx⟩
          · exact Or.inl (List.mem_cons_of_mem _ hh)
          · exact Or.inr ⟨pp, List.mem_cons_of_mem _ hpp, hxx⟩

/-- A successful catalog lookup returns a product actually bearing the
looked-up name. -/
theorem get_product_name (inv : Inventory) (name : String) (p : Product)
    (h : get_product inv name = some p) : p.name = name := by
  rw [get_product] at h
  have h2 := List.find?_some h
  simpa using h2

theorem sales_handler_not_found (inv : Inventory) (name : String) (q : Nat)
    (h : get_product inv name = none) :
    sales_handler inv name q = (inv, some SaleErr.NotFound) := by
  simp [sales_handler, h]

theorem sales_handler_insufficient (inv : Inventory) (name : String) (q : Nat)
    (p : Product) (h : get_product inv name = some p) (hq : p.quantity < q) :
    sales_handler inv name q = (inv, some SaleErr.InsufficientStock) := by
  simp [sales_handler, h, hq]

/-- A successful sale replaces the first matching product by its clone with
quantity decremented and appends exactly one sale transaction snapshotting
the product's current sale price; the purchase log is untouched. -/
theorem sales_handler_success (inv : Inventory) (name : String) (q : Nat) (p : Product)
    (h : get_product inv name = some p) (hq : q ≤ p.quantity) :
    ∃ l, updateFirst inv.products name
        (fun _ => { p with quantity := p.quantity - q }) = some l ∧
      sales_handler inv name q =
        (Inventory.mk l (inv.sale_txs ++ [SaleTx.mk name q p.sale_price])
          inv.purchase_txs, none) := by
  have hpn : p.name = name := get_product_name inv name p h
  have hfind : inv.products.find? (fun x => x.name == name) = some p := by
    rw [get_product] at h
    exact h
  have hupd : ¬ updateFirst inv.products name
      (fun _ => { p with quantity := p.quantity - q }) = none := by
    rw [updateFirst_none, hfind]
    simp
  cases hup : updateFirst inv.products name
      (fun _ => { p with quantity := p.quantity - q }) with
  | none => exact absurd hup hupd
  | some l =>
    refine ⟨l, rfl, ?_⟩
    have hq2 : ¬ q > p.quantity := by omega
    rw [hpn] at hup
    simp [sales_handler, h, hq2, edit_product, record_sale, hpn, hup]

theorem mergeLot_not_mem (lots : List (Nat × ℚ)) (q : Nat) (c : ℚ)
    (h : ¬ c ∈ lots.map (fun l => l.2)) :
    mergeLot lots q c = lots ++ [(q, c)] := by
  induction lots with
  | nil => rfl
  | cons hd rest ih =>
    obtain ⟨q0, p0⟩ := hd
    simp only [List.map_cons, List.mem_cons, not_or] at h
    rw [mergeLot, if_neg (fun hh => h.1 hh.symm), ih h.2, List.cons_append]

theorem mergeLot_mem (lots : List (Nat × ℚ)) (q : Nat) (c : ℚ)
    (h : c ∈ lots.map (fun l => l.2)) :
    (mergeLot lots q c).map (fun l => l.2) = lots.map (fun l => l.2) := by
  induction lots with
  | nil => simp at h
  | cons hd rest ih =>
    obtain ⟨q0, p0⟩ := hd
    by_cases hp : p0 = c
    · rw [mergeLot, if_pos hp]
      simp
    · have h2 : c ∈ rest.map (fun l => l.2) := by
        simp only [List.map_cons, List.mem_cons] at h
        rcases h with h | h
        · exact absurd h.symm hp
        · exact h
      rw [mergeLot, if_neg hp]
      simp [ih h2]

/-- Merging a lot preserves the no-duplicate-cost invariant of a ledger. -/
theorem mergeLot_nodup (lots : List (Nat × ℚ)) (q : Nat) (c : ℚ)
    (h : (lots.map (fun l => l.2)).Nodup) :
    ((mergeLot lots q c).map (fun l => l.2)).Nodup := by
  by_cases hm : c ∈ lots.map (fun l => l.2)
  · rw [mergeLot_mem lots q c hm]
    exact h
  · rw [mergeLot_not_mem lots q c hm, List.map_append, List.nodup_append]
    refine ⟨h, List.nodup_singleton c, ?_⟩
    intro a ha hb
    rw [List.map_singleton, List.mem_singleton] at hb
    subst hb
    exact hm ha

/-- The merge rewrites exactly the first lot carrying the merged unit cost,
adding the restocked quantity to it and leaving every other lot in place. -/
theorem mergeLot_found (q : Nat) (c : ℚ) :
    ∀ (lots₁ : List (Nat × ℚ)) (q0 : Nat) (lots₂ : List (Nat × ℚ)),
      ¬ c ∈ lots₁.map (fun l => l.2) →
      mergeLot (lots₁ ++ (q0, c) :: lots₂) q c = lots₁ ++ (q0 + q, c) :: lots₂ := by
  intro lots₁
  induction lots₁ with
  | nil =>
    intro q0 lots₂ h
    rw [List.nil_append, mergeLot, if_pos rfl, List.nil_append]
  | cons hd rest ih =>
    intro q0 lots₂ h
    obtain ⟨qh, ph⟩ := hd
    simp only [List.map_cons, List.mem_cons, not_or] at h
    rw [List.cons_append, mergeLot, if_neg (fun hh => h.1 hh.symm), ih q0 lots₂ h.2,
      List.cons_append]

/-! ### Operation-sequence machinery -/

theorem runOp_create_eq (inv : Inventory) (n d : String) (q : Nat) (sp pp : ℚ)
    (inv' : Inventory) (h : runOp inv (.create n d q sp pp) = some inv') :
    get_product inv n = none ∧
    inv' = Inventory.mk (inv.products ++ [Product.new n d q sp pp])
        inv.sale_txs (inv.purchase_txs ++ [PurchaseTx.mk n q pp]) := by
  simp only [runOp] at h
  by_cases h0 : q = 0
  · rw [if_pos h0] at h
    simp at h
  rw [if_neg h0] at h
  by_cases h1 : sp < 0
  · rw [if_pos h1] at h
    simp at h
  rw [if_neg h1] at h
  by_cases h2 : pp < 0
  · rw [if_pos h2] at h
    simp at h
  rw [if_neg h2] at h
  cases hgp : get_product inv n with
  | some p =>
    rw [hgp] at h
    simp at h
  | none =>
    rw [hgp] at h
    have h3 : record_purchase (add_new_product inv n d q sp pp) (PurchaseTx.mk n q pp)
        = inv' := by injection h
    refine ⟨rfl, ?_⟩
    rw [← h3]
    rfl

theorem runOp_restock_eq (inv : Inventory) (n : String) (q : Nat) (pp : ℚ)
    (inv' : Inventory) (h : runOp inv (.restock n q pp) = some inv') :
    ∃ l, updateFirst inv.products n (fun p =>
        { p with quantity := p.quantity + q,
                 purchase_prices := mergeLot p.purchase_prices q pp }) = some l ∧
      inv' = Inventory.mk l inv.sale_txs (inv.purchase_txs ++ [PurchaseTx.mk n q pp]) := by
  simp only [runOp] at h
  by_cases h0 : q = 0
  · rw [if_pos h0] at h
    simp at h
  rw [if_neg h0] at h
  by_cases h1 : pp < 0
  · rw [if_pos h1] at h
    simp at h
  rw [if_neg h1] at h
  cases hgp : get_product inv n with
  | none =>
    rw [hgp] at h
    simp at h
  | some p =>
    rw [hgp] at h
    cases hup : updateFirst inv.products n (fun p =>
        { p with quantity := p.quantity + q,
                 purchase_prices := mergeLot p.purchase_prices q pp }) with
    | none =>
      rw [show add_same_product inv n q pp = .error ("Unavailable product: " ++ n) by
        simp [add_same_product, hup]] at h
      simp at h
    | some l =>
      rw [show add_same_product inv n q pp =
          .ok (Inventory.mk l inv.sale_txs inv.purchase_txs) by
        simp [add_same_product, hup]] at h
      have h3 : record_purchase (Inventory.mk l inv.sale_txs inv.purchase_txs)
          (PurchaseTx.mk n q pp) = inv' := by injection h
      refine ⟨l, rfl, ?_⟩
      rw [← h3]
      rfl

theorem runOp_sale_eq (inv : Inventory) (n : String) (q : Nat)
    (inv' : Inventory) (h : runOp inv (.sale n q) = some inv') :
    ∃ p l, get_product inv n = some p ∧ q ≤ p.quantity ∧
      updateFirst inv.products n (fun _ => { p with quantity := p.quantity - q }) = some l ∧
      inv' = Inventory.mk l (inv.sale_txs ++ [SaleTx.mk n q p.sale_price])
        inv.purchase_txs := by
  simp only [runOp] at h
  cases hgp : get_product inv n with
  | none =>
    rw [sales_handler_not_found inv n q hgp] at h
    simp at h
  | some p =>
    by_cases hq : q ≤ p.quantity
    · obtain ⟨l, hup, hsh⟩ := sales_handler_success inv n q p hgp hq
      rw [hsh] at h
      have h3 : Inventory.mk l (inv.sale_txs ++ [SaleTx.mk n q p.sale_price])
          inv.purchase_txs = inv' := by injection h
      exact ⟨p, l, rfl, hq, hup, h3.symm⟩
    · rw [sales_handler_insufficient inv n q p hgp (by omega)] at h
      simp at h

theorem runOp_edit_eq (inv : Inventory) (n : String) (d : Option String)
    (sp : Option ℚ) (inv' : Inventory) (h : runOp inv (.edit n d sp) = some inv') :
    ∃ p l, get_product inv n = some p ∧
      updateFirst inv.products n (fun _ =>
        { p with description := d.getD p.description,
                 sale_price := sp.getD p.sale_price }) = some l ∧
      inv' = Inventory.mk l inv.sale_txs inv.purchase_txs := by
  cases hgp : get_product inv n with
  | none =>
    rw [show runOp inv (.edit n d sp) = none by simp [runOp, hgp]] at h
    simp at h
  | some p =>
    by_cases hsp : sp.getD 0 < 0
    · rw [show runOp inv (.edit n d sp) = none by simp [runOp, hgp, hsp]] at h
      simp at h
    · have hpn : p.name = n := get_product_name inv n p hgp
      cases hup : updateFirst inv.products n (fun _ =>
          { p with description := d.getD p.description,
                   sale_price := sp.getD p.sale_price }) with
      | none =>
        have hup2 := hup
        rw [hpn] at hup2
        rw [show runOp inv (.edit n d sp) = none by
          simp [runOp, hgp, hsp, edit_product, hpn, hup2]] at h
        simp at h
      | some l =>
        have hup2 := hup
        rw [hpn] at hup2
        rw [show runOp inv (.edit n d sp) =
            some (Inventory.mk l inv.sale_txs inv.purchase_txs) by
          simp [runOp, hgp, hsp, edit_product, hpn, hup2]] at h
        injection h with h
        exact ⟨p, l, rfl, hup, h.symm⟩

theorem runOp_del_eq (inv : Inventory) (n : String) (inv' : Inventory)
    (h : runOp inv (.del n) = some inv') :
    inv' = Inventory.mk (inv.products.filter (fun p => p.name != n))
      inv.sale_txs inv.purchase_txs := by
  simp only [runOp] at h
  injection h with h
  rw [← h]
  rfl

/-- Invariant: no product of the catalog holds two lots with the same unit
cost. -/
def goodLots (inv : Inventory) : Prop :=
  ∀ p ∈ inv.products, (p.purchase_prices.map (fun l => l.2)).Nodup

theorem runOp_goodLots (inv inv' : Inventory) (op : Op)
    (h : runOp inv op = some inv') (hg : goodLots inv) : goodLots inv' := by
  cases op with
  | create n d q sp pp =>
    obtain ⟨-, h2⟩ := runOp_create_eq inv n d q sp pp inv' h
    subst h2
    intro p hp
    rcases List.mem_append.mp hp with hp | hp
    · exact hg p hp
    · rw [List.mem_singleton] at hp
      subst hp
      simp [Product.new]
  | restock n q pp =>
    obtain ⟨l, hup, h2⟩ := runOp_restock_eq inv n q pp inv' h
    subst h2
    intro p hp
    rcases updateFirst_mem n _ inv.products l hup p hp with hm | ⟨p0, hp0, hpe⟩
    · exact hg p hm
    · subst hpe
      exact mergeLot_nodup p0.purchase_prices q pp (hg p0 hp0)
  | sale n q =>
    obtain ⟨p0, l, hgp, hq, hup, h2⟩ := runOp_sale_eq inv n q inv' h
    subst h2
    intro p hp
    rcases updateFirst_mem n _ inv.products l hup p hp with hm | ⟨p1, hp1, hpe⟩
    · exact hg p hm
    · subst hpe
      rw [get_product] at hgp
      exact hg p0 (List.mem_of_find?_eq_some hgp)
  | edit n d sp =>
    obtain ⟨p0, l, hgp, hup, h2⟩ := runOp_edit_eq inv n d sp inv' h
    subst h2
    intro p hp
    rcases updateFirst_mem n _ inv.products l hup p hp with hm | ⟨p1, hp1, hpe⟩
    · exact hg p hm
    · subst hpe
      rw [get_product] at hgp
      exact hg p0 (List.mem_of_find?_eq_some hgp)
  | del n =>
    have h2 := runOp_del_eq inv n inv' h
    subst h2
    intro p hp
    exact hg p (List.mem_of_mem_filter hp)

theorem runOps_goodLots : ∀ (ops : List Op) (inv inv' : Inventory),
    runOps inv ops = some inv' → goodLots inv → goodLots inv' := by
  intro ops
  induction ops with
  | nil =>
    intro inv inv' h hg
    injection h with h
    rw [← h]
    exact hg
  | cons op rest ih =>
    intro inv inv' h hg
    simp only [runOps] at h
    cases hop : runOp inv op with
    | none => rw [hop] at h; simp at h
    | some inv2 =>
      rw [hop] at h
      exact ih inv2 inv' h (runOp_goodLots inv inv2 op hop hg)

theorem qtyOf_eq (inv : Inventory) (m : String) :
    qtyOf inv m =
      ((inv.products.find? (fun p => p.name == m)).map (fun p => p.quantity)).getD 0 := by
  rw [qtyOf, get_product]
  cases inv.products.find? (fun p => p.name == m) <;> rfl

theorem find?_products_append (ps : List Product) (newP : Product) (m : String) :
    (ps ++ [newP]).find? (fun p => p.name == m) =
      (ps.find? (fun p => p.name == m)).or
        (if newP.name = m then some newP else none) := by
  rw [List.find?_append]
  congr 1
  by_cases h : newP.name = m
  · rw [if_pos h, find?_name_cons_pos newP [] m h]
  · rw [if_neg h, find?_name_cons_neg newP [] m h]
    rfl

theorem purchasedQty_cons (op : Op) (ops : List Op) (name : String) :
    purchasedQty (op :: ops) name = purchasedQty [op] name + purchasedQty ops name := by
  simp [purchasedQty]

theorem soldQty_cons (op : Op) (ops : List Op) (name : String) :
    soldQty (op :: ops) name = soldQty [op] name + soldQty ops name := by
  simp [soldQty]

/-- Single-step accounting: one validated create/restock/sale operation
changes the on-hand quantity of each product name by its purchased amount
minus its sold amount. -/
theorem qtyOf_runOp (inv inv' : Inventory) (op : Op) (name : String)
    (hop : isCRS op = true) (h : runOp inv op = some inv') :
    (qtyOf inv' name : ℤ) =
      qtyOf inv name + purchasedQty [op] name - soldQty [op] name := by
  cases op with
  | edit n d sp => simp [isCRS] at hop
  | del n => simp [isCRS] at hop
  | create n d q sp pp =>
    obtain ⟨hgp, h2⟩ := runOp_create_eq inv n d q sp pp inv' h
    subst h2
    rw [get_product] at hgp
    rw [qtyOf_eq, qtyOf_eq]
    dsimp only
    rw [find?_products_append]
    by_cases hn : n = name
    · subst hn
      rw [hgp]
      simp [purchasedQty, soldQty, Product.new]
    · rw [if_neg (by simpa [Product.new] using hn)]
      simp [purchasedQty, soldQty, hn]
  | restock n q pp =>
    obtain ⟨l, hup, h2⟩ := runOp_restock_eq inv n q pp inv' h
    subst h2
    have hf := find?_updateFirst n (fun p =>
        { p with quantity := p.quantity + q,
                 purchase_prices := mergeLot p.purchase_prices q pp })
      (fun p hp => hp) inv.products l hup
    rw [qtyOf_eq, qtyOf_eq]
    dsimp only
    rw [hf name]
    by_cases hn : name = n
    · subst hn
      rw [if_pos rfl]
      cases hfind : inv.products.find? (fun p => p.name == name) with
      | none =>
        have h3 := (updateFirst_none name (fun p =>
            { p with quantity := p.quantity + q,
                     purchase_prices := mergeLot p.purchase_prices q pp })
          inv.products).mpr hfind
        rw [hup] at h3
        exact absurd h3 (by simp)
      | some p =>
        simp [purchasedQty, soldQty]
    · rw [if_neg hn]
      have hn2 : ¬ n = name := fun hh => hn hh.symm
      simp [purchasedQty, soldQty, hn2]
  | sale n q =>
    obtain ⟨p, l, hgp, hq, hup, h2⟩ := runOp_sale_eq inv n q inv' h
    subst h2
    have hpn : p.name = n := get_product_name inv n p hgp
    have hf := find?_updateFirst n (fun _ => { p with quantity := p.quantity - q })
      (fun x hx => hpn) inv.products l hup
    rw [get_product] at hgp
    rw [qtyOf_eq, qtyOf_eq]
    dsimp only
    rw [hf name]
    by_cases hn : name = n
    · subst hn
      rw [if_pos rfl, hgp]
      simp [purchasedQty, soldQty]
      omega
    · rw [if_neg hn]
      have hn2 : ¬ n = name := fun hh => hn hh.symm
      simp [purchasedQty, soldQty, hn2]

/-- Accounting over a whole validated create/restock/sale sequence. -/
theorem qtyOf_runOps : ∀ (ops : List Op) (inv inv' : Inventory) (name : String),
    (∀ op ∈ ops, isCRS op = true) → runOps inv ops = some inv' →
    (qtyOf inv' name : ℤ) =
      qtyOf inv name + purchasedQty ops name - soldQty ops name := by
  intro ops
  induction ops with
  | nil =>
    intro inv inv' name _ h
    injection h with h
    subst h
    simp [purchasedQty, soldQty]
  | cons op rest ih =>
    intro inv inv' name hcrs h
    simp only [runOps] at h
    cases hop : runOp inv op with
    | none => rw [hop] at h; simp at h
    | some inv2 =>
      rw [hop] at h
      have h1 := qtyOf_runOp inv inv2 op name (hcrs op (List.mem_cons_self op rest)) hop
      have h2 := ih inv2 inv' name (fun o ho => hcrs o (List.mem_cons_of_mem op ho)) h
      rw [purchasedQty_cons, soldQty_cons]
      push_cast at h1 h2 ⊢
      omega

/-! ### Concrete fixtures used to instantiate the theorems -/

/-- The spec's Widget scenario after create(10 @ cost 2, price 5),
restock(5 @ cost 3), then two further sale log entries and one entry for a
product missing from the catalog. -/
def wInv : Inventory :=
  Inventory.mk
    [Product.mk "Widget" "d" 3 5 [(10, 2), (5, 3)]]
    [SaleTx.mk "Widget" 7 5, SaleTx.mk "Widget" 5 6, SaleTx.mk "Gone" 1 1]
    [PurchaseTx.mk "Widget" 10 2, PurchaseTx.mk "Widget" 5 3]

/-- The catalog record of `wInv`. -/
def wProduct : Product := Product.mk "Widget" "d" 3 5 [(10, 2), (5, 3)]

/-- The spec's concrete scenario as an operation sequence. -/
def wOps : List Op :=
  [Op.create "Widget" "d" 10 5 2, Op.restock "Widget" 5 3, Op.sale "Widget" 12]

/-- The inventory reached by running `wOps` from the empty store. -/
def wInvRun : Inventory :=
  Inventory.mk [Product.mk "Widget" "d" 3 5 [(10, 2), (5, 3)]]
    [SaleTx.mk "Widget" 12 5]
    [PurchaseTx.mk "Widget" 10 2, PurchaseTx.mk "Widget" 5 3]

/-- An inventory whose recorded sales exceed the product's purchase lots. -/
def wOverInv : Inventory :=
  Inventory.mk [Product.mk "W" "d" 0 5 [(2, 1)]] [SaleTx.mk "W" 3 5] []

/-! ### The claims -/

/-- C1: Sequential-mode cost attribution (sales history): processing the sale
log in order, each transaction is priced by one `consumeFifo` query at the
per-product offset accumulated from the same product's earlier transactions
(`display_sales_eq`, whose right-hand side `specSeqLines` prices each
transaction with `consumeFifo offset quantity` and profit
`quantity * sale_price - cost`, advancing the offset by the full quantity
whether or not all units matched); the cost of such a query is exactly the
sum of the unit-cost slice starting after the first `offset` units, so the
units consumed by a transaction form the index interval
`[offset, offset + quantity)` of the lot sequence; and for two transactions
of the same product the later interval is disjoint from the earlier one, so
no lot unit is attributed to two transactions. -/
theorem c1_sequential_attribution :
    (∀ inv : Inventory, display_sales inv = specSeqLines inv.products [] inv.sale_txs) ∧
    (∀ (off q : Nat) (lots : List (Nat × ℚ)),
      (consumeFifo off q lots).1 = (((unitCosts lots).drop off).take q).sum ∧
      (consumeFifo off q lots).2 = q - (((unitCosts lots).drop off).take q).length) ∧
    (∀ (txs : List SaleTx) (name : String) (i j : Nat)
        (hi : i < txs.length) (hj : j < txs.length), i < j →
      (txs.get ⟨i, hi⟩).product_name = name → (txs.get ⟨j, hj⟩).product_name = name →
      Disjoint
        (Finset.Ico (salesQty (txs.take i) name)
          (salesQty (txs.take i) name + (txs.get ⟨i, hi⟩).quantity))
        (Finset.Ico (salesQty (txs.take j) name)
          (salesQty (txs.take j) name + (txs.get ⟨j, hj⟩).quantity))) := by
  refine ⟨display_sales_eq, ?_, seq_intervals_disjoint⟩
  intro off q lots
  exact ⟨consumeFifo_fst lots off q, consumeFifo_snd lots off q⟩

theorem c1_sequential_attribution_witness :
    display_sales wInv = specSeqLines wInv.products [] wInv.sale_txs ∧
    (consumeFifo 7 5 [(10, (2:ℚ)), (5, 3)]).1 =
      (((unitCosts [(10, (2:ℚ)), (5, 3)]).drop 7).take 5).sum ∧
    Disjoint
      (Finset.Ico (salesQty (wInv.sale_txs.take 0) "Widget")
        (salesQty (wInv.sale_txs.take 0) "Widget" +
          (wInv.sale_txs.get ⟨0, by decide⟩).quantity))
      (Finset.Ico (salesQty (wInv.sale_txs.take 1) "Widget")
        (salesQty (wInv.sale_txs.take 1) "Widget" +
          (wInv.sale_txs.get ⟨1, by decide⟩).quantity)) :=
  ⟨c1_sequential_attribution.1 wInv,
   (c1_sequential_attribution.2.1 7 5 [(10, 2), (5, 3)]).1,
   c1_sequential_attribution.2.2 wInv.sale_txs "Widget" 0 1 (by decide) (by decide)
     (by decide) (by decide) (by decide)⟩

/-- C2: Sequential vs aggregate equivalence: for a cataloged product whose
total recorded sold quantity is at most its total lot quantity, the sum of
the sequential-mode (offset-tracking) per-transaction costs equals the
aggregate-mode cost, one FIFO consumption of the total sold quantity from
offset 0 — which is exactly what the `report_sales` loop computes. -/
theorem c2_seq_agg_equivalence :
    ∀ (inv : Inventory) (name : String) (P : Product),
      get_product inv name = some P →
      salesQty inv.sale_txs name ≤ totalUnits P.purchase_prices →
      seqCostSum P.purchase_prices 0 (txQuantities inv.sale_txs name) =
        (consumeFifo 0 (salesQty inv.sale_txs name) P.purchase_prices).1 ∧
      reportCost (salesQty inv.sale_txs name) P.purchase_prices =
        (consumeFifo 0 (salesQty inv.sale_txs name) P.purchase_prices).1 := by
  intro inv name P hP hle
  constructor
  · rw [seqCostSum_eq, salesQty_eq_sum]
  · exact reportCost_eq_consumeFifo P.purchase_prices _

theorem c2_seq_agg_equivalence_witness :
    seqCostSum [(10, (2:ℚ)), (5, 3)] 0 (txQuantities wInv.sale_txs "Widget") =
      (consumeFifo 0 (salesQty wInv.sale_txs "Widget") [(10, (2:ℚ)), (5, 3)]).1 ∧
    reportCost (salesQty wInv.sale_txs "Widget") [(10, (2:ℚ)), (5, 3)] =
      (consumeFifo 0 (salesQty wInv.sale_txs "Widget") [(10, (2:ℚ)), (5, 3)]).1 :=
  c2_seq_agg_equivalence wInv "Widget" wProduct (by decide) (by decide)

/-- C3 counterexample: the claim's concrete figure is wrong on the code: for
lots [(10, $1), (5, $2)] the aggregate FIFO cost of 12 units computed by the
`report_sales` loop is 10*$1 + 2*$2 = $14, not $12. -/
theorem c3_fifo_cost_counterexample :
    reportCost 12 [(10, (1:ℚ)), (5, 2)] = 14 ∧
    ¬ reportCost 12 [(10, (1:ℚ)), (5, 2)] = 12 := by
  constructor
  · norm_num [reportCost]
  · norm_num [reportCost]

/-- C3 (amended): the per-product sales report computes cost by walking the
lot sequence from the beginning, greedily taking min(remaining, lot) from
each lot (equivalently: one `consumeFifo` query at offset 0); for lots
[(10, $1), (5, $2)] a total sold quantity of 12 yields cost
10*$1 + 2*$2 = $14, and a request beyond the 15 available units leaves a
positive unmatched remainder. -/
theorem c3_fifo_cost_amended :
    (∀ (sold : Nat) (lots : List (Nat × ℚ)),
      reportCost sold lots = (consumeFifo 0 sold lots).1) ∧
    reportCost 12 [(10, (1:ℚ)), (5, 2)] = 14 ∧
    (∀ n : Nat, 15 < n →
      (consumeFifo 0 n [(10, (1:ℚ)), (5, 2)]).2 = n - 15 ∧
      0 < (consumeFifo 0 n [(10, (1:ℚ)), (5, 2)]).2) ∧
    (∀ (inv : Inventory) (name : String) (P : Product),
      get_product inv name = some P →
      reportEntry inv name = ReportLine.ok (salesRevenue inv.sale_txs name -
        reportCost (salesQty inv.sale_txs name) P.purchase_prices)) := by
  refine ⟨fun sold lots => reportCost_eq_consumeFifo lots sold, by norm_num [reportCost],
    ?_, ?_⟩
  · intro n hn
    have hlen : (((unitCosts [(10, (1:ℚ)), (5, 2)]).drop 0).take n).length = 15 := by
      rw [List.drop_zero, List.length_take, length_unitCosts]
      have h15 : totalUnits [(10, (1:ℚ)), (5, 2)] = 15 := rfl
      rw [h15]
      omega
    rw [consumeFifo_snd, hlen]
    exact ⟨rfl, by omega⟩
  · intro inv name P hP
    simp only [reportEntry, hP]

theorem c3_fifo_cost_amended_witness :
    reportCost 20 [(10, (1:ℚ)), (5, 2)] = (consumeFifo 0 20 [(10, (1:ℚ)), (5, 2)]).1 ∧
    (consumeFifo 0 16 [(10, (1:ℚ)), (5, 2)]).2 = 1 ∧
    reportEntry wInv "Widget" = ReportLine.ok (salesRevenue wInv.sale_txs "Widget" -
      reportCost (salesQty wInv.sale_txs "Widget") wProduct.purchase_prices) :=
  ⟨c3_fifo_cost_amended.1 20 [(10, 1), (5, 2)],
   (c3_fifo_cost_amended.2.2.1 16 (by omega)).1,
   c3_fifo_cost_amended.2.2.2 wInv "Widget" wProduct (by decide)⟩

/-- C4: Lot merge invariant: restocking adds the quantity to the (first, and
under the invariant unique) existing lot with exactly equal unit cost, else
appends a new lot at the end, preserving the order of all other lots; two
restocks at the same fresh unit cost produce one summed lot, not two; and
after any sequence of validated operations from the empty store no product
holds two lots with equal unit cost. -/
theorem c4_lot_merge_invariant :
    (∀ (lots : List (Nat × ℚ)) (q : Nat) (c : ℚ),
      ¬ c ∈ lots.map (fun l => l.2) → mergeLot lots q c = lots ++ [(q, c)]) ∧
    (∀ (q : Nat) (c : ℚ) (lots₁ : List (Nat × ℚ)) (q0 : Nat) (lots₂ : List (Nat × ℚ)),
      ¬ c ∈ lots₁.map (fun l => l.2) →
      mergeLot (lots₁ ++ (q0, c) :: lots₂) q c = lots₁ ++ (q0 + q, c) :: lots₂) ∧
    (∀ (lots : List (Nat × ℚ)) (q1 q2 : Nat) (c : ℚ),
      ¬ c ∈ lots.map (fun l => l.2) →
      mergeLot (mergeLot lots q1 c) q2 c = lots ++ [(q1 + q2, c)]) ∧
    (∀ (ops : List Op) (inv : Inventory),
      runOps Inventory.new ops = some inv → goodLots inv) := by
  refine ⟨mergeLot_not_mem, mergeLot_found, ?_, ?_⟩
  · intro lots q1 q2 c h
    rw [mergeLot_not_mem lots q1 c h, mergeLot_found q2 c lots q1 [] h]
  · intro ops inv h
    refine runOps_goodLots ops Inventory.new inv h ?_
    intro p hp
    simp [Inventory.new] at hp

theorem c4_lot_merge_invariant_witness :
    mergeLot [(10, (2:ℚ))] 5 3 = [(10, 2), (5, 3)] ∧
    mergeLot [(10, (2:ℚ)), (5, 3)] 4 3 = [(10, 2), (5 + 4, 3)] ∧
    mergeLot (mergeLot [(10, (2:ℚ))] 5 3) 4 3 = [(10, 2), (5 + 4, 3)] ∧
    goodLots wInvRun :=
  ⟨c4_lot_merge_invariant.1 [(10, 2)] 5 3 (by decide),
   c4_lot_merge_invariant.2.1 4 3 [(10, 2)] 5 [] (by decide),
   c4_lot_merge_invariant.2.2.1 [(10, 2)] 5 4 3 (by decide),
   c4_lot_merge_invariant.2.2.2 wOps wInvRun (by decide)⟩

/-- C5: Stock conservation: after any validated create/restock/sale sequence
from the empty store, each product's on-hand quantity equals its total
purchased quantity minus its total sold quantity. -/
theorem c5_stock_conservation :
    ∀ (ops : List Op) (inv : Inventory) (name : String),
      (∀ op ∈ ops, isCRS op = true) →
      runOps Inventory.new ops = some inv →
      (qtyOf inv name : ℤ) = (purchasedQty ops name : ℤ) - soldQty ops name := by
  intro ops inv name hcrs h
  have h1 := qtyOf_runOps ops Inventory.new inv name hcrs h
  have h0 : qtyOf Inventory.new name = 0 := rfl
  rw [h1, h0]
  push_cast
  omega

theorem c5_stock_conservation_witness :
    (qtyOf wInvRun "Widget" : ℤ) =
      (purchasedQty wOps "Widget" : ℤ) - soldQty wOps "Widget" :=
  c5_stock_conservation wOps wInvRun "Widget" (by decide) (by decide)

/-- C6: Sale price snapshot: a sale appends a transaction carrying the
product's sale price as it is at the time of the sale, and a later
`edit_product` (which rewrites only the catalog) leaves both transaction
logs — hence the `sale_price` stored in every existing entry — unchanged. -/
theorem c6_sale_price_snapshot :
    (∀ (inv : Inventory) (np : Product) (inv2 : Inventory),
      edit_product inv np = .ok inv2 →
      inv2.sale_txs = inv.sale_txs ∧ inv2.purchase_txs = inv.purchase_txs) ∧
    (∀ (inv : Inventory) (name : String) (q : Nat) (p : Product) (inv2 : Inventory),
      get_product inv name = some p →
      sales_handler inv name q = (inv2, none) →
      inv2.sale_txs = inv.sale_txs ++ [SaleTx.mk name q p.sale_price]) := by
  constructor
  · intro inv np inv2 h
    simp only [edit_product] at h
    cases hup : updateFirst inv.products np.name (fun _ => np) with
    | none =>
      rw [hup] at h
      simp at h
    | some l =>
      rw [hup] at h
      injection h with h
      rw [← h]
      exact ⟨rfl, rfl⟩
  · intro inv name q p inv2 hgp hsh
    by_cases hq : q ≤ p.quantity
    · obtain ⟨l, hup, hs⟩ := sales_handler_success inv name q p hgp hq
      rw [hs] at hsh
      injection hsh with h1 h2
      rw [← h1]
    · rw [sales_handler_insufficient inv name q p hgp (by omega)] at hsh
      injection hsh with h1 h2
      exact absurd h2 (by simp)

theorem c6_sale_price_snapshot_witness :
    ((Inventory.mk [Product.mk "Widget" "x" 3 9 [(10, 2), (5, 3)]]
        wInv.sale_txs wInv.purchase_txs).sale_txs = wInv.sale_txs ∧
      (Inventory.mk [Product.mk "Widget" "x" 3 9 [(10, 2), (5, 3)]]
        wInv.sale_txs wInv.purchase_txs).purchase_txs = wInv.purchase_txs) ∧
    (Inventory.mk [Product.mk "Widget" "d" 1 5 [(10, 2), (5, 3)]]
        (wInv.sale_txs ++ [SaleTx.mk "Widget" 2 5]) wInv.purchase_txs).sale_txs =
      wInv.sale_txs ++ [SaleTx.mk "Widget" 2 wProduct.sale_price] :=
  ⟨c6_sale_price_snapshot.1 wInv (Product.mk "Widget" "x" 3 9 [(10, 2), (5, 3)])
      (Inventory.mk [Product.mk "Widget" "x" 3 9 [(10, 2), (5, 3)]]
        wInv.sale_txs wInv.purchase_txs) (by rfl),
   c6_sale_price_snapshot.2 wInv "Widget" 2 wProduct
      (Inventory.mk [Product.mk "Widget" "d" 1 5 [(10, 2), (5, 3)]]
        (wInv.sale_txs ++ [SaleTx.mk "Widget" 2 5]) wInv.purchase_txs)
      (by decide) (by decide)⟩

/-- C7: Deletion gap handling: after deleting a product, its historical sale
entries remain in the log; the sales report line for it is the gap marker
(both as `reportEntry` and in every matching `report_sales` row), every one
of its sales-history lines is the gap marker, and both reports still produce
one line per entry (no abort). -/
theorem c7_deletion_gap :
    ∀ (inv : Inventory) (name : String),
      get_product (delete_product inv name) name = none ∧
      (delete_product inv name).sale_txs = inv.sale_txs ∧
      reportEntry (delete_product inv name) name = ReportLine.gap ∧
      (∀ e ∈ report_sales (delete_product inv name), e.1 = name →
        e.2.2.2 = ReportLine.gap) ∧
      List.Forall₂ (fun (tx : SaleTx) (l : HistLine) => tx.product_name = name →
          l = HistLine.gap tx.product_name tx.quantity tx.sale_price)
        (delete_product inv name).sale_txs (display_sales (delete_product inv name)) ∧
      (display_sales (delete_product inv name)).length =
        (delete_product inv name).sale_txs.length := by
  intro inv name
  have hfind : (delete_product inv name).products.find?
      (fun p => p.name == name) = none := by
    rw [List.find?_eq_none]
    intro p hp
    have h2 := (List.mem_filter.mp hp).2
    simp at h2 ⊢
    exact h2
  have hgp : get_product (delete_product inv name) name = none := by
    rw [get_product]
    exact hfind
  refine ⟨hgp, rfl, ?_, ?_, ?_, ?_⟩
  · simp only [reportEntry, hgp]
  · intro e he hname
    simp only [report_sales, List.mem_map] at he
    obtain ⟨n, hn, he2⟩ := he
    rw [← he2] at hname ⊢
    dsimp only at hname ⊢
    rw [hname]
    simp only [reportEntry, hgp]
  · rw [display_sales_eq]
    exact specSeqLines_gap _ name hfind _ []
  · rw [display_sales_eq, specSeqLines_length]

theorem c7_deletion_gap_witness :
    get_product (delete_product wInv "Widget") "Widget" = none ∧
    (delete_product wInv "Widget").sale_txs = wInv.sale_txs ∧
    reportEntry (delete_product wInv "Widget") "Widget" = ReportLine.gap ∧
    reportEntry (delete_product wInv "Widget") "Widget" = ReportLine.gap ∧
    (display_sales (delete_product wInv "Widget")).length =
      (delete_product wInv "Widget").sale_txs.length :=
  ⟨(c7_deletion_gap wInv "Widget").1,
   (c7_deletion_gap wInv "Widget").2.1,
   (c7_deletion_gap wInv "Widget").2.2.1,
   (c7_deletion_gap wInv "Widget").2.2.2.1
     ("Widget", salesQty (delete_product wInv "Widget").sale_txs "Widget",
       salesRevenue (delete_product wInv "Widget").sale_txs "Widget",
       reportEntry (delete_product wInv "Widget") "Widget")
     (List.mem_map.mpr ⟨"Widget", by decide, rfl⟩) rfl,
   (c7_deletion_gap wInv "Widget").2.2.2.2.2⟩

/-- C8: record_sale contract: selling fails with `NotFound` when the product
is absent, fails with `InsufficientStock` exactly when the requested
quantity is strictly greater than the on-hand quantity (so selling the
whole stock succeeds), and on success replaces the first matching product by
its clone with the quantity decremented, appends exactly one sale
transaction carrying the product's current sale price, and leaves the
purchase log alone; on either failure the returned inventory is exactly the
input inventory. -/
theorem c8_record_sale_contract :
    ∀ (inv : Inventory) (name : String) (q : Nat),
      (get_product inv name = none →
        sales_handler inv name q = (inv, some SaleErr.NotFound)) ∧
      (∀ p, get_product inv name = some p → p.quantity < q →
        sales_handler inv name q = (inv, some SaleErr.InsufficientStock)) ∧
      (∀ p, get_product inv name = some p → q ≤ p.quantity →
        ∃ l, updateFirst inv.products name
            (fun _ => { p with quantity := p.quantity - q }) = some l ∧
          sales_handler inv name q =
            (Inventory.mk l (inv.sale_txs ++ [SaleTx.mk name q p.sale_price])
              inv.purchase_txs, none) ∧
          get_product (Inventory.mk l (inv.sale_txs ++ [SaleTx.mk name q p.sale_price])
              inv.purchase_txs) name = some { p with quantity := p.quantity - q }) := by
  intro inv name q
  refine ⟨sales_handler_not_found inv name q,
    fun p hp hq => sales_handler_insufficient inv name q p hp hq, ?_⟩
  intro p hp hq
  obtain ⟨l, hup, hs⟩ := sales_handler_success inv name q p hp hq
  refine ⟨l, hup, hs, ?_⟩
  have hpn : p.name = name := get_product_name inv name p hp
  have hf := find?_updateFirst name (fun _ => { p with quantity := p.quantity - q })
    (fun x hx => hpn) inv.products l hup
  rw [get_product]
  dsimp only
  rw [hf name, if_pos rfl]
  rw [get_product] at hp
  rw [hp]
  rfl

theorem c8_record_sale_contract_witness :
    sales_handler wInv "NoSuch" 1 = (wInv, some SaleErr.NotFound) ∧
    sales_handler wInv "Widget" 4 = (wInv, some SaleErr.InsufficientStock) ∧
    (∃ l, updateFirst wInv.products "Widget"
        (fun _ => { wProduct with quantity := wProduct.quantity - 3 }) = some l ∧
      sales_handler wInv "Widget" 3 =
        (Inventory.mk l (wInv.sale_txs ++ [SaleTx.mk "Widget" 3 wProduct.sale_price])
          wInv.purchase_txs, none) ∧
      get_product (Inventory.mk l
          (wInv.sale_txs ++ [SaleTx.mk "Widget" 3 wProduct.sale_price])
          wInv.purchase_txs) "Widget" =
        some { wProduct with quantity := wProduct.quantity - 3 }) :=
  ⟨(c8_record_sale_contract wInv "NoSuch" 1).1 (by decide),
   (c8_record_sale_contract wInv "Widget" 4).2.1 wProduct (by decide) (by decide),
   (c8_record_sale_contract wInv "Widget" 3).2.2 wProduct (by decide) (by decide)⟩

/-- C9 counterexample: the claim fails on the code: the sale path accepts a
zero-quantity sale of an existing product and appends a SaleTransaction with
quantity 0, so not every logged sale transaction has quantity > 0. -/
theorem c9_sale_positivity_counterexample :
    runOps Inventory.new [Op.create "W" "d" 5 2 1, Op.sale "W" 0] =
      some (Inventory.mk [Product.mk "W" "d" 5 2 [(5, 1)]]
        [SaleTx.mk "W" 0 2] [PurchaseTx.mk "W" 5 1]) ∧
    ¬ 0 < (SaleTx.mk "W" 0 (2:ℚ)).quantity := by
  exact ⟨by decide, by decide⟩

/-- C9 (amended): every accepted sale operation appends exactly one
transaction whose recorded quantity equals the requested quantity; the
recorded quantity is positive whenever the requested quantity is positive,
but the sale path does not reject a zero-quantity request, which is
accepted and recorded with quantity 0. -/
theorem c9_sale_quantity_amended :
    ∀ (inv : Inventory) (name : String) (q : Nat) (p : Product) (inv2 : Inventory),
      get_product inv name = some p → sales_handler inv name q = (inv2, none) →
      inv2.sale_txs = inv.sale_txs ++ [SaleTx.mk name q p.sale_price] ∧
      (0 < q → ∃ tx, inv2.sale_txs = inv.sale_txs ++ [tx] ∧ 0 < tx.quantity) := by
  intro inv name q p inv2 hgp hsh
  by_cases hq : q ≤ p.quantity
  · obtain ⟨l, hup, hs⟩ := sales_handler_success inv name q p hgp hq
    rw [hs] at hsh
    injection hsh with h1 h2
    rw [← h1]
    constructor
    · rfl
    · intro h0
      exact ⟨SaleTx.mk name q p.sale_price, rfl, h0⟩
  · rw [sales_handler_insufficient inv name q p hgp (by omega)] at hsh
    injection hsh with h1 h2
    exact absurd h2 (by simp)

theorem c9_sale_quantity_amended_witness :
    (Inventory.mk [Product.mk "Widget" "d" 1 5 [(10, 2), (5, 3)]]
        (wInv.sale_txs ++ [SaleTx.mk "Widget" 2 5]) wInv.purchase_txs).sale_txs =
      wInv.sale_txs ++ [SaleTx.mk "Widget" 2 wProduct.sale_price] ∧
    (0 < 2 → ∃ tx, (Inventory.mk [Product.mk "Widget" "d" 1 5 [(10, 2), (5, 3)]]
        (wInv.sale_txs ++ [SaleTx.mk "Widget" 2 5]) wInv.purchase_txs).sale_txs =
      wInv.sale_txs ++ [tx] ∧ 0 < tx.quantity) :=
  c9_sale_quantity_amended wInv "Widget" 2 wProduct
    (Inventory.mk [Product.mk "Widget" "d" 1 5 [(10, 2), (5, 3)]]
      (wInv.sale_txs ++ [SaleTx.mk "Widget" 2 5]) wInv.purchase_txs)
    (by decide) (by decide)

/-- C10 (implicit): when a product's recorded sold quantity exceeds its
total lot quantity, the aggregate report line is a numeric profit of
revenue minus the full cost of all lots — the excess units contribute zero
cost and no error or remainder indication is produced — and the sequential
history prices the same transactions with every line numeric and their
total attributed cost again equal to the full cost of all lots. -/
theorem c10_excess_zero_cost :
    ∀ (inv : Inventory) (name : String) (P : Product),
      get_product inv name = some P →
      totalUnits P.purchase_prices < salesQty inv.sale_txs name →
      reportEntry inv name = ReportLine.ok (salesRevenue inv.sale_txs name -
        lotTotalCost P.purchase_prices) ∧
      seqCostSum P.purchase_prices 0 (txQuantities inv.sale_txs name) =
        lotTotalCost P.purchase_prices ∧
      List.Forall₂ (fun (tx : SaleTx) (l : HistLine) => tx.product_name = name →
          ∃ r, l = HistLine.ok tx.product_name tx.quantity tx.sale_price r)
        inv.sale_txs (display_sales inv) := by
  intro inv name P hP hlt
  have hcost : (consumeFifo 0 (salesQty inv.sale_txs name) P.purchase_prices).1 =
      lotTotalCost P.purchase_prices :=
    consumeFifo_fst_of_total_le P.purchase_prices _ (by omega)
  refine ⟨?_, ?_, ?_⟩
  · simp only [reportEntry, hP]
    rw [reportCost_eq_consumeFifo, hcost]
  · rw [seqCostSum_eq, ← salesQty_eq_sum, hcost]
  · rw [display_sales_eq]
    refine specSeqLines_ok inv.products name P ?_ inv.sale_txs []
    rw [get_product] at hP
    exact hP

theorem c10_excess_zero_cost_witness :
    reportEntry wOverInv "W" = ReportLine.ok (salesRevenue wOverInv.sale_txs "W" -
      lotTotalCost [(2, (1:ℚ))]) ∧
    seqCostSum [(2, (1:ℚ))] 0 (txQuantities wOverInv.sale_txs "W") =
      lotTotalCost [(2, (1:ℚ))] :=
  ⟨(c10_excess_zero_cost wOverInv "W" (Product.mk "W" "d" 0 5 [(2, 1)])
      (by decide) (by decide)).1,
   (c10_excess_zero_cost wOverInv "W" (Product.mk "W" "d" 0 5 [(2, 1)])
      (by decide) (by decide)).2.1⟩
